import Mathlib

/-!
Verification development for the tsbean-driver-postgres query compiler.

The TypeScript sources (src/filtering.ts, src/utils.ts, src/driver.ts) are
embedded shallowly:

* strings are modeled as lists of characters (`Str`);
* character case operations use the core ASCII `Char.toLower` and
  `Char.toUpper`, which agree with the JavaScript operations on the ASCII
  range quantified over by the verified claims;
* SQL-bindable values are modeled by the inductive `SqlValue`; both the
  JavaScript `null` and `undefined` map to `SqlValue.nullV`, because every
  embedded function treats them identically;
* promise-based driver methods are modeled by the pure functions that
  compute the statement text, the bound values and the resolution value,
  and the streaming reader is modeled by an event-trace semantics.
-/

namespace TsbeanPG

/-- Strings are modeled as lists of characters. -/
abbrev Str := List Char

/-- Embeds a Lean string literal as a character list. -/
def cs (s : String) : Str := s.toList

/-- A value handed to the SQL parameter binder (the elements of the
`values` arrays in the sources). -/
inductive SqlValue where
  | nullV
  | intV (n : Int)
  | strV (s : Str)
  | boolV (b : Bool)
  | dateV (ms : Int)
deriving DecidableEq

/-- A row record, modeled as an association list in property order
(JavaScript objects preserve insertion order of string keys). -/
abbrev Row := List (Str × SqlValue)

/-- src/utils.ts `toSnakeCase`: before each character that changes under
lower-casing, insert an underscore and lower-case it. -/
def toSnakeCase : Str → Str
  | [] => []
  | c :: rest => (if c.toLower ≠ c then ['_', c.toLower] else [c]) ++ toSnakeCase rest

/-- The loop of src/utils.ts `toCamelCase`, with the `nextUpper` flag as an
explicit argument. -/
def camelGo : Str → Bool → Str
  | [], _ => []
  | c :: rest, nextUpper =>
      if c = '_' then camelGo rest true
      else (if nextUpper then c.toUpper else c.toLower) :: camelGo rest false

/-- src/utils.ts `toCamelCase`: drop underscores, upper-casing the character
following each one and lower-casing every other character. -/
def toCamelCase (snake : Str) : Str := camelGo snake false

/-- First pass of src/utils.ts `replaceLikeWildcards`:
`str.replace(/[%]/g, "\\%")`. -/
def replacePercent : Str → Str
  | [] => []
  | c :: rest => (if c = '%' then ['\\', '%'] else [c]) ++ replacePercent rest

/-- Second pass of src/utils.ts `replaceLikeWildcards`:
`str.replace(/[_]/g, "\\_")`. -/
def replaceUnderscore : Str → Str
  | [] => []
  | c :: rest => (if c = '_' then ['\\', '_'] else [c]) ++ replaceUnderscore rest

/-- src/utils.ts `replaceLikeWildcards`: the two global replacements run in
sequence, exactly as in the source. -/
def replaceLikeWildcards (s : Str) : Str := replaceUnderscore (replacePercent s)

/-- src/utils.ts `toSQLCompatibleValue`, restricted to the value kinds of
`SqlValue`: null passes through, numbers, strings and dates pass through,
booleans normalize to 0/1. -/
def toSQLCompatibleValue : SqlValue → SqlValue
  | .nullV => .nullV
  | .intV n => .intV n
  | .strV s => .strV s
  | .dateV d => .dateV d
  | .boolV b => .intV (if b then 1 else 0)

/-- JavaScript object property assignment `r[k] = v` on an insertion-ordered
association list: overwrite in place when the key exists, append otherwise. -/
def objSet (r : Row) (k : Str) (v : SqlValue) : Row :=
  if r.any fun p => decide (p.1 = k) then
    r.map fun p => if p.1 = k then (k, v) else p
  else r ++ [(k, v)]

/-- The body of the loop of src/utils.ts `normalizeSQLResults` for a single
row: assign each value under the camel-cased key of its original key. -/
def normalizeRow (row : Row) : Row :=
  row.foldl (fun acc kv => objSet acc (toCamelCase kv.1) kv.2) []

/-- src/utils.ts `normalizeSQLResults`: rewrite every key of every row from
snake case to camel case. -/
def normalizeSQLResults (results : List Row) : List Row :=
  results.map normalizeRow

/-- The loop of src/utils.ts `reverseRegexp`, with the `nextEscape` flag as
an explicit argument. -/
def revGo : Str → Bool → Str
  | [], _ => []
  | c :: rest, nextEscape =>
      if c = '\\' then
        if nextEscape then '\\' :: revGo rest false else revGo rest true
      else c :: revGo rest false

/-- src/utils.ts `reverseRegexp` applied to the source text of a regular
expression: strip one layer of backslash escaping. -/
def reverseRegexp (source : Str) : Str := revGo source false

/-- Decimal rendering of a natural number, modeling the JavaScript string
conversion in `"$" + i`. -/
def natDigits (n : Nat) : Str :=
  if _h : n < 10 then [Char.ofNat (48 + n)]
  else natDigits (n / 10) ++ [Char.ofNat (48 + n % 10)]
termination_by n
decreasing_by exact Nat.div_lt_self (by omega) (by omega)

/-- The positional marker `"$" + i` of src/utils.ts `toPostgresTemplate`. -/
def dollar (i : Nat) : Str := '$' :: natDigits i

/-- Number of question-mark placeholders in a string. -/
def qCount (s : Str) : Nat := s.count '?'

/-- JavaScript `String.prototype.replace` with the string pattern `"?"`:
replace the first occurrence only. -/
def replaceFirstQ : Str → Str → Str
  | [], _ => []
  | c :: rest, rep => if c = '?' then rep ++ rest else c :: replaceFirstQ rest rep

/-- The while loop of src/utils.ts `toPostgresTemplate`: while the template
contains a question mark, replace the first one with the next positional
marker. -/
def toPGGo (s : Str) (i : Nat) : Str :=
  if h : '?' ∈ s then toPGGo (replaceFirstQ s (dollar i)) (i + 1) else s
termination_by qCount s
decreasing_by
  have hrep : ∀ (t rep : Str), '?' ∈ t → qCount (replaceFirstQ t rep) + 1 = qCount rep + qCount t := by
    intro t rep ht
    induction t with
    | nil => cases ht
    | cons c rest ih =>
      by_cases hc : c = '?'
      · subst hc
        simp [replaceFirstQ, qCount, List.count_append, List.count_cons]
        omega
      · have ht' : '?' ∈ rest := by
          cases ht with
          | head => exact absurd rfl hc
          | tail _ h => exact h
        have ihh := ih ht'
        have hrw : replaceFirstQ (c :: rest) rep = c :: replaceFirstQ rest rep := by
          simp [replaceFirstQ, hc]
        rw [hrw]
        have h1 : qCount (c :: replaceFirstQ rest rep) = qCount (replaceFirstQ rest rep) := by
          simp [qCount, List.count_cons, hc]
        have h2 : qCount (c :: rest) = qCount rest := by
          simp [qCount, List.count_cons, hc]
        omega
  have hdigits : ∀ m : Nat, '?' ∉ natDigits m := by
    intro m
    induction m using Nat.strong_induction_on with
    | _ m ih =>
      rw [natDigits]
      split
      · next hlt =>
        have hc : ∀ j, j < 10 → Char.ofNat (48 + j) ≠ '?' := by decide
        simp
        exact fun habs => (hc m hlt) habs.symm
      · next hge =>
        intro habs
        rcases List.mem_append.mp habs with hL | hR
        · exact ih (m / 10) (Nat.div_lt_self (by omega) (by omega)) hL
        · have hc : ∀ j, j < 10 → Char.ofNat (48 + j) ≠ '?' := by decide
          simp at hR
          exact (hc (m % 10) (Nat.mod_lt _ (by omega))) hR.symm
  have hdz : qCount (dollar i) = 0 := by
    have hnm : '?' ∉ dollar i := by
      intro habs
      cases habs with
      | tail _ hmem => exact hdigits i hmem
    exact List.count_eq_zero.mpr hnm
  have := hrep s (dollar i) h
  omega

/-- src/utils.ts `toPostgresTemplate`. -/
def toPostgresTemplate (s : Str) : Str := toPGGo s 1

/-- JavaScript `String.prototype.startsWith` with a one-character prefix. -/
def strStartsWith (s : Str) (c : Char) : Bool :=
  match s with
  | x :: _ => x = c
  | [] => false

/-- JavaScript `String.prototype.endsWith` with a one-character suffix. -/
def strEndsWith (s : Str) (c : Char) : Bool :=
  match s.getLast? with
  | some x => x = c
  | none => false

/-- The generic filter tree of tsbean-orm, as consumed by
src/filtering.ts `filterToSQL`.  `nullF` models a null or undefined filter
(the `if (!filter)` guard); `regexF` carries the source text and the flags
of the regular expression; a null or undefined comparison value is
`SqlValue.nullV`. -/
inductive GFilter where
  | nullF
  | andF (children : List GFilter)
  | orF (children : List GFilter)
  | notF (child : GFilter)
  | regexF (key : Str) (source : Str) (flags : Str)
  | inF (key : Str) (values : List SqlValue)
  | existsF (key : Str) (ex : Bool)
  | eqF (key : Str) (value : SqlValue)
  | neF (key : Str) (value : SqlValue)
  | gtF (key : Str) (value : SqlValue)
  | ltF (key : Str) (value : SqlValue)
  | gteF (key : Str) (value : SqlValue)
  | lteF (key : Str) (value : SqlValue)

/-- The subquery loop of the `"in"` case of `filterToSQL`: one
`("field" = ?)` group per value, joined by `" OR "`. -/
def inSub (fieldSql : Str) : List SqlValue → Bool → Str
  | [], _ => []
  | _ :: rest, first =>
      (if first then [] else cs " OR ") ++ cs "(\"" ++ fieldSql ++ cs "\" = ?)" ++
        inSub fieldSql rest false

mutual

/-- src/filtering.ts `filterToSQL`: compiles a filter into a SQL boolean
expression fragment (still with `?` placeholders) and the ordered list of
bound values. -/
def filterToSQL (f : GFilter) (conv : Str → Str) : Str × List SqlValue :=
  match f with
  | .nullF => ([], [])
  | .andF children => seqChildren children conv (cs " AND ") true
  | .orF children => seqChildren children conv (cs " OR ") true
  | .notF child =>
      let c := filterToSQL child conv
      if c.1.length > 0 then (cs "NOT( " ++ c.1 ++ cs " )", c.2) else ([], [])
  | .regexF key source flags =>
      let rStr := reverseRegexp source
      ((if flags.contains 'i' then
          cs "UPPER(\"" ++ conv key ++ cs "\") LIKE UPPER(?)"
        else
          cs "\"" ++ conv key ++ cs "\" LIKE ?"),
       [SqlValue.strV
          (if strStartsWith rStr '^' then replaceLikeWildcards (rStr.drop 1) ++ cs "%"
           else if strEndsWith rStr '$' then cs "%" ++ replaceLikeWildcards rStr.dropLast
           else cs "%" ++ replaceLikeWildcards rStr ++ cs "%")])
  | .inF key vs =>
      let sub := inSub (conv key) vs true
      ((if sub.length > 0 then cs "(" ++ sub ++ cs ")" else []), vs)
  | .existsF key ex =>
      ((if ex then cs "\"" ++ conv key ++ cs "\" IS NOT NULL"
        else cs "\"" ++ conv key ++ cs "\" IS NULL"), [])
  | .eqF key v =>
      if v = SqlValue.nullV then (cs "\"" ++ conv key ++ cs "\" IS NULL", [])
      else (cs "\"" ++ conv key ++ cs "\" = ?", [v])
  | .neF key v =>
      if v = SqlValue.nullV then (cs "\"" ++ conv key ++ cs "\" IS NOT NULL", [])
      else (cs "\"" ++ conv key ++ cs "\" != ?", [v])
  | .gtF key v => (cs "\"" ++ conv key ++ cs "\" > ?", [v])
  | .ltF key v => (cs "\"" ++ conv key ++ cs "\" < ?", [v])
  | .gteF key v => (cs "\"" ++ conv key ++ cs "\" >= ?", [v])
  | .lteF key v => (cs "\"" ++ conv key ++ cs "\" <= ?", [v])

/-- The shared child loop of the `"and"` and `"or"` cases of `filterToSQL`:
children whose compiled fragment is empty are skipped (contributing neither
text nor values); the others are parenthesized and joined by the separator,
with their values concatenated in order. -/
def seqChildren (children : List GFilter) (conv : Str → Str) (sep : Str) (first : Bool) :
    Str × List SqlValue :=
  match children with
  | [] => ([], [])
  | c :: rest =>
      let child := filterToSQL c conv
      if child.1.length > 0 then
        let tail := seqChildren rest conv sep false
        ((if first then [] else sep) ++ cs "( " ++ child.1 ++ cs " )" ++ tail.1,
         child.2 ++ tail.2)
      else
        seqChildren rest conv sep first

end

/-- A compiled-fragment token: either literal SQL text or a placeholder hole
carrying the value bound at that position.  This is the specification-side
decomposition used to state the placeholder/value correspondence. -/
inductive SqlTok where
  | lit (s : Str)
  | hole (v : SqlValue)
deriving DecidableEq

/-- Renders a token list to the fragment text, printing each hole as `?`. -/
def renderToks : List SqlTok → Str
  | [] => []
  | .lit s :: rest => s ++ renderToks rest
  | .hole _ :: rest => '?' :: renderToks rest

/-- The values of a token list, in hole order. -/
def tokValues : List SqlTok → List SqlValue
  | [] => []
  | .lit _ :: rest => tokValues rest
  | .hole v :: rest => v :: tokValues rest

/-- A literal token is free of question-mark characters. -/
def litQFree : SqlTok → Prop
  | .lit s => '?' ∉ s
  | .hole _ => True

/-- Token-level counterpart of `inSub`. -/
def inSubToks (fieldSql : Str) : List SqlValue → Bool → List SqlTok
  | [], _ => []
  | v :: rest, first =>
      (if first then [] else [SqlTok.lit (cs " OR ")]) ++
        [SqlTok.lit (cs "(\"" ++ fieldSql ++ cs "\" = "), SqlTok.hole v, SqlTok.lit (cs ")")] ++
        inSubToks fieldSql rest false

mutual

/-- Token-level counterpart of `filterToSQL`: the same compilation, but
keeping the placeholder positions and their values structured. -/
def filterToToks (f : GFilter) (conv : Str → Str) : List SqlTok :=
  match f with
  | .nullF => []
  | .andF children => seqToks children conv (cs " AND ") true
  | .orF children => seqToks children conv (cs " OR ") true
  | .notF child =>
      if (filterToSQL child conv).1.length > 0 then
        SqlTok.lit (cs "NOT( ") :: filterToToks child conv ++ [SqlTok.lit (cs " )")]
      else []
  | .regexF key source flags =>
      let rStr := reverseRegexp source
      let v := SqlValue.strV
          (if strStartsWith rStr '^' then replaceLikeWildcards (rStr.drop 1) ++ cs "%"
           else if strEndsWith rStr '$' then cs "%" ++ replaceLikeWildcards rStr.dropLast
           else cs "%" ++ replaceLikeWildcards rStr ++ cs "%")
      if flags.contains 'i' then
        [SqlTok.lit (cs "UPPER(\"" ++ conv key ++ cs "\") LIKE UPPER("), SqlTok.hole v,
         SqlTok.lit (cs ")")]
      else
        [SqlTok.lit (cs "\"" ++ conv key ++ cs "\" LIKE "), SqlTok.hole v]
  | .inF key vs =>
      if (inSub (conv key) vs true).length > 0 then
        SqlTok.lit (cs "(") :: inSubToks (conv key) vs true ++ [SqlTok.lit (cs ")")]
      else []
  | .existsF key ex =>
      [SqlTok.lit (if ex then cs "\"" ++ conv key ++ cs "\" IS NOT NULL"
        else cs "\"" ++ conv key ++ cs "\" IS NULL")]
  | .eqF key v =>
      if v = SqlValue.nullV then [SqlTok.lit (cs "\"" ++ conv key ++ cs "\" IS NULL")]
      else [SqlTok.lit (cs "\"" ++ conv key ++ cs "\" = "), SqlTok.hole v]
  | .neF key v =>
      if v = SqlValue.nullV then [SqlTok.lit (cs "\"" ++ conv key ++ cs "\" IS NOT NULL")]
      else [SqlTok.lit (cs "\"" ++ conv key ++ cs "\" != "), SqlTok.hole v]
  | .gtF key v => [SqlTok.lit (cs "\"" ++ conv key ++ cs "\" > "), SqlTok.hole v]
  | .ltF key v => [SqlTok.lit (cs "\"" ++ conv key ++ cs "\" < "), SqlTok.hole v]
  | .gteF key v => [SqlTok.lit (cs "\"" ++ conv key ++ cs "\" >= "), SqlTok.hole v]
  | .lteF key v => [SqlTok.lit (cs "\"" ++ conv key ++ cs "\" <= "), SqlTok.hole v]

/-- Token-level counterpart of `seqChildren`. -/
def seqToks (children : List GFilter) (conv : Str → Str) (sep : Str) (first : Bool) :
    List SqlTok :=
  match children with
  | [] => []
  | c :: rest =>
      if (filterToSQL c conv).1.length > 0 then
        (if first then [] else [SqlTok.lit sep]) ++
          SqlTok.lit (cs "( ") :: filterToToks c conv ++ [SqlTok.lit (cs " )")] ++
          seqToks rest conv sep false
      else seqToks rest conv sep first

end

mutual

/-- The field names referenced by a filter, in traversal order. -/
def keysOf (f : GFilter) : List Str :=
  match f with
  | .nullF => []
  | .andF children => keysOfList children
  | .orF children => keysOfList children
  | .notF child => keysOf child
  | .regexF key _ _ => [key]
  | .inF key _ => [key]
  | .existsF key _ => [key]
  | .eqF key _ => [key]
  | .neF key _ => [key]
  | .gtF key _ => [key]
  | .ltF key _ => [key]
  | .gteF key _ => [key]
  | .lteF key _ => [key]

/-- Field names of a list of filters. -/
def keysOfList : List GFilter → List Str
  | [] => []
  | c :: rest => keysOf c ++ keysOfList rest

end

/-- Specification-side placeholder renumbering: the k-th question mark in
left-to-right order becomes the positional marker `$k` (1-based). -/
def renum (s : Str) (k : Nat) : Str :=
  match s with
  | [] => []
  | c :: rest => if c = '?' then dollar k ++ renum rest (k + 1) else c :: renum rest k

/-- Modeled from the specification text of the Pattern Translator: `escape`
backslash-escapes the two SQL LIKE wildcard characters in a single pass. -/
def specEscape : Str → Str
  | [] => []
  | c :: rest =>
      if c = '%' then '\\' :: '%' :: specEscape rest
      else if c = '_' then '\\' :: '_' :: specEscape rest
      else c :: specEscape rest

/-- Modeled from the specification text of the Pattern Translator: anchor
selection for the LIKE pattern built from the unescaped regex text. -/
def specLikePattern (rStr : Str) : Str :=
  if strStartsWith rStr '^' then specEscape (rStr.drop 1) ++ cs "%"
  else if strEndsWith rStr '$' then cs "%" ++ specEscape rStr.dropLast
  else cs "%" ++ specEscape rStr ++ cs "%"

/-- Lower-case ASCII letters. -/
def lowerAlpha : List Char := cs "abcdefghijklmnopqrstuvwxyz"

/-- Upper-case ASCII letters. -/
def upperAlpha : List Char := cs "ABCDEFGHIJKLMNOPQRSTUVWXYZ"

/-- ASCII digits. -/
def asciiDigits : List Char := cs "0123456789"

/-- ASCII letters and digits. -/
def alnumChars : List Char := lowerAlpha ++ upperAlpha ++ asciiDigits

/-- Lower-case ASCII letters and digits. -/
def lowerAlnum : List Char := lowerAlpha ++ asciiDigits

/-- Application-convention identifiers: ASCII letters and digits only, word
boundaries marked by capitalization. -/
def isCamelStr (x : Str) : Prop := ∀ c ∈ x, c ∈ alnumChars

instance (x : Str) : Decidable (isCamelStr x) := by
  unfold isCamelStr
  infer_instance

/-- Storage-convention identifiers: lower-case ASCII letters and digits,
words joined by underscores, each underscore immediately followed by a
letter. -/
def isSnakeStr : Str → Bool
  | [] => true
  | c :: rest =>
      if c = '_' then
        (match rest with
         | [] => false
         | d :: _ => decide (d ∈ lowerAlpha)) && isSnakeStr rest
      else decide (c ∈ lowerAlnum) && isSnakeStr rest

/-- Double-quote delimiter quoting of an identifier. -/
def quoteId (s : Str) : Str := '"' :: s ++ ['"']

/-- JavaScript `Array.prototype.join(",")`. -/
def joinComma : List Str → Str
  | [] => []
  | [s] => s
  | s :: rest => s ++ ',' :: joinComma rest

/-- JavaScript property read `row[k]` on an association list (`none` models
`undefined`). -/
def rowLookup : Row → Str → Option SqlValue
  | [], _ => none
  | (k, v) :: rest, key => if k = key then some v else rowLookup rest key

/-- The check `row[key] === null || row[key] === undefined` of
src/driver.ts `insert`. -/
def rowNullOrAbsent (row : Row) (k : Str) : Bool :=
  match rowLookup row k with
  | none => true
  | some v => v = SqlValue.nullV

/-- JavaScript truthiness of a nullable string (`null`, `undefined` and the
empty string are falsy). -/
def jsStrTruthy : Option Str → Bool
  | none => false
  | some [] => false
  | some (_ :: _) => true

/-- The column/value/placeholder loop of src/driver.ts `insert`: skip the
entry whose key is the primary key when its value is null or absent. -/
def insertCols (row : Row) (key : Option Str) (conv : Str → Str) :
    List Str × List SqlValue × List Str :=
  match row with
  | [] => ([], [], [])
  | (k, v) :: rest =>
      let t := insertCols rest key conv
      if key = some k ∧ v = SqlValue.nullV then t
      else (quoteId (conv k) :: t.1, toSQLCompatibleValue v :: t.2.1, cs "?" :: t.2.2)

/-- The auto-generated-key condition of src/driver.ts `insert`:
`key && (row[key] === null || row[key] === undefined)`. -/
def insertAutoGen (row : Row) (key : Option Str) : Bool :=
  jsStrTruthy key &&
    (match key with
     | some k => rowNullOrAbsent row k
     | none => false)

/-- The `RETURNING` clause appended by src/driver.ts `insert` in
auto-generated-key mode. -/
def insertReturningClause (key : Option Str) (conv : Str → Str) : Str :=
  match key with
  | some k => cs " RETURNING \"" ++ conv k ++ cs "\""
  | none => []

/-- src/driver.ts `insert`, up to the placeholder renumbering: the statement
text, the bound values and the `insertReturns` flag. -/
def insertSentence (table : Str) (row : Row) (key : Option Str) (conv : Str → Str) :
    Str × List SqlValue × Bool :=
  let t := insertCols row key conv
  let autoGen := insertAutoGen row key
  ((cs "INSERT INTO \"" ++ table ++ cs "\"(" ++ joinComma t.1 ++ cs ") VALUES (" ++
      joinComma t.2.2 ++ cs ")") ++
     (if autoGen then insertReturningClause key conv else []),
   t.2.1, autoGen)

/-- src/driver.ts `insert`: the final statement handed to the pool. -/
def insertSQL (table : Str) (row : Row) (key : Option Str) (conv : Str → Str) :
    Str × List SqlValue × Bool :=
  let s := insertSentence table row key conv
  (toPostgresTemplate s.1, s.2.1, s.2.2)

/-- The key delivery of the `insert` result callback: invoked with the
returned key value only when the statement carried a `RETURNING` clause and
the query produced at least one row. -/
def insertCallbackArg (insertReturns : Bool) (convKey : Str)
    (rows : Option (List Row)) : Option (Option SqlValue) :=
  if insertReturns then
    match rows with
    | some (r :: _) => some (rowLookup r convKey)
    | _ => none
  else none

/-- A value of an update descriptor as consumed by src/driver.ts
`updateMany`: a plain replacement value, or a tagged set/increment
operation. -/
inductive UpdVal where
  | prim (v : SqlValue)
  | setOp (value : SqlValue)
  | incOp (value : SqlValue)
deriving DecidableEq

/-- The SET-clause loop of src/driver.ts `update`. -/
def updateSetClause (updated : Row) (conv : Str → Str) (first : Bool) :
    Str × List SqlValue :=
  match updated with
  | [] => ([], [])
  | (k, v) :: rest =>
      let t := updateSetClause rest conv false
      ((if first then [] else cs ", ") ++ cs "\"" ++ conv k ++ cs "\" = ?" ++ t.1,
       toSQLCompatibleValue v :: t.2)

/-- src/driver.ts `update`: `none` models the early `return` taken for an
empty update descriptor (no statement is built or issued); otherwise the
statement and its bound values. -/
def updateSQL (table keyName : Str) (keyValue : SqlValue) (updated : Row)
    (conv : Str → Str) : Option (Str × List SqlValue) :=
  match updated with
  | [] => none
  | _ =>
      let clause := updateSetClause updated conv true
      some (toPostgresTemplate
              (cs "UPDATE \"" ++ table ++ cs "\" SET " ++ clause.1 ++
                 cs " WHERE \"" ++ conv keyName ++ cs "\" = ?"),
            clause.2 ++ [keyValue])

/-- The SET-clause loop of src/driver.ts `updateMany`: tagged `set` and
plain values emit `"field" = ?`, `inc` emits `"field" = "field" + ?`. -/
def updateManySetClause (updated : List (Str × UpdVal)) (conv : Str → Str) (first : Bool) :
    Str × List SqlValue :=
  match updated with
  | [] => ([], [])
  | (k, u) :: rest =>
      let t := updateManySetClause rest conv false
      let seg : Str × SqlValue :=
        match u with
        | .setOp v => (cs "\"" ++ conv k ++ cs "\" = ?", toSQLCompatibleValue v)
        | .incOp v => (cs "\"" ++ conv k ++ cs "\" = \"" ++ conv k ++ cs "\" + ?",
                       toSQLCompatibleValue v)
        | .prim v => (cs "\"" ++ conv k ++ cs "\" = ?", toSQLCompatibleValue v)
      ((if first then [] else cs ", ") ++ seg.1 ++ t.1, seg.2 :: t.2)

/-- src/driver.ts `updateMany`: `none` models the early `return` taken for
an empty update descriptor; otherwise the statement and its bound values,
with the compiled filter appended as WHERE when non-empty. -/
def updateManySQL (table : Str) (filter : GFilter) (updated : List (Str × UpdVal))
    (conv : Str → Str) : Option (Str × List SqlValue) :=
  match updated with
  | [] => none
  | _ =>
      let clause := updateManySetClause updated conv true
      let cond1 := filterToSQL filter conv
      let base := cs "UPDATE \"" ++ table ++ cs "\" SET " ++ clause.1
      some (toPostgresTemplate
              (if cond1.1.length > 0 then base ++ cs " WHERE " ++ cond1.1 else base),
            if cond1.1.length > 0 then clause.2 ++ cond1.2 else clause.2)

/-- The resolution value of src/driver.ts `findByKey` as a function of the
row set returned by the query (`none` for a null/absent row array): null
when no row matched, otherwise the first row with its keys rewritten to the
application convention. -/
def findByKeyResolve (rows : Option (List Row)) : Option Row :=
  match rows with
  | none => none
  | some rs => if rs.length > 0 then (normalizeSQLResults rs).head? else none

/-- One result of `cursor.read` in the streaming loop of src/driver.ts
`findStream` / `findStreamSync`: a row batch, or a read error (which the
source converts into an empty batch, ending the loop). -/
inductive BatchResult where
  | ok (rows : List Row)
  | err
deriving DecidableEq

/-- The rows delivered to the loop for one read. -/
def readResult : BatchResult → List Row
  | .ok rows => rows
  | .err => []

/-- Observable events of one streaming read, in order of occurrence. -/
inductive StreamEvent where
  | readEv
  | handleEv (r : Row)
  | resolveEv
  | closeCursorEv
  | releaseConnEv
deriving DecidableEq

/-- The per-batch row loop of `findStream` / `findStreamSync`: each row is
normalized and handed to the handler; a handler failure (modeled as
`false`) aborts the batch.  Returns the handler events and whether the
whole batch succeeded. -/
def handleBatch (each : Row → Bool) : List Row → List StreamEvent × Bool
  | [] => ([], true)
  | r :: rest =>
      if each (normalizeRow r) then
        let t := handleBatch each rest
        (StreamEvent.handleEv r :: t.1, t.2)
      else ([StreamEvent.handleEv r], false)

/-- Event-trace semantics of the streaming loop shared by src/driver.ts
`findStream` and `findStreamSync` (their bodies are identical up to the
handler being suspending or synchronous).  The input lists the successive
`cursor.read` results; once they are exhausted, further reads return the
empty batch.  A non-empty batch is handed row by row to the handler; an
exception thrown by the handler propagates out of the async executor, so
the loop, the resolution and the `cursor.close`/`client.release` calls
after it are all skipped.  An empty batch (including one produced by a read
error) ends the loop, after which the promise resolves and the cursor is
closed, releasing the connection from the close callback. -/
def runFindStream (each : Row → Bool) : List BatchResult → List StreamEvent
  | [] => [StreamEvent.readEv, StreamEvent.resolveEv, StreamEvent.closeCursorEv,
           StreamEvent.releaseConnEv]
  | b :: rest =>
      let rows := readResult b
      if rows.length > 0 then
        let h := handleBatch each rows
        if h.2 then StreamEvent.readEv :: h.1 ++ runFindStream each rest
        else StreamEvent.readEv :: h.1
      else [StreamEvent.readEv, StreamEvent.resolveEv, StreamEvent.closeCursorEv,
            StreamEvent.releaseConnEv]

/-- The placeholder/value correspondence for one compiled filter: the token
decomposition renders to the compiled fragment, its holes carry exactly the
compiled values in order, and every literal segment is free of question
marks. -/
abbrev GoodF (f : GFilter) (conv : Str → Str) : Prop :=
  renderToks (filterToToks f conv) = (filterToSQL f conv).1 ∧
  tokValues (filterToToks f conv) = (filterToSQL f conv).2 ∧
  ∀ t ∈ filterToToks f conv, litQFree t

/-- The placeholder/value correspondence for the child loop. -/
abbrev SeqGood (children : List GFilter) (conv : Str → Str) (sep : Str) (first : Bool) : Prop :=
  renderToks (seqToks children conv sep first) = (seqChildren children conv sep first).1 ∧
  tokValues (seqToks children conv sep first) = (seqChildren children conv sep first).2 ∧
  ∀ t ∈ seqToks children conv sep first, litQFree t

/-! ### Placeholder renumbering (src/utils.ts `toPostgresTemplate`) -/

theorem natDigits_no_q : ∀ m : Nat, '?' ∉ natDigits m := by
  intro m
  induction m using Nat.strong_induction_on with
  | _ m ih =>
    rw [natDigits]
    split
    · next hlt =>
      have hc : ∀ j, j < 10 → Char.ofNat (48 + j) ≠ '?' := by decide
      simp
      exact fun habs => (hc m hlt) habs.symm
    · next hge =>
      intro habs
      rcases List.mem_append.mp habs with hL | hR
      · exact ih (m / 10) (Nat.div_lt_self (by omega) (by omega)) hL
      · have hc : ∀ j, j < 10 → Char.ofNat (48 + j) ≠ '?' := by decide
        simp at hR
        exact (hc (m % 10) (Nat.mod_lt _ (by omega))) hR.symm

theorem dollar_no_q (i : Nat) : '?' ∉ dollar i := by
  intro habs
  cases habs with
  | tail _ hmem => exact natDigits_no_q i hmem

theorem renum_no_q_prefix : ∀ (pre : Str), '?' ∉ pre → ∀ (t : Str) (k : Nat),
    renum (pre ++ t) k = pre ++ renum t k := by
  intro pre hpre
  induction pre with
  | nil => intro t k; rfl
  | cons c rest ih =>
    intro t k
    have hc : c ≠ '?' := fun habs => hpre (habs ▸ List.mem_cons_self c rest)
    have hrest : '?' ∉ rest := fun habs => hpre (List.mem_cons_of_mem c habs)
    simp only [List.cons_append, renum, if_neg hc, List.append_eq]
    rw [ih hrest]

theorem renum_of_no_q : ∀ (s : Str), '?' ∉ s → ∀ k, renum s k = s := by
  intro s hs k
  have := renum_no_q_prefix s hs [] k
  simpa [renum] using this

theorem first_q_split : ∀ (s : Str), '?' ∈ s →
    ∃ pre suf, s = pre ++ '?' :: suf ∧ '?' ∉ pre := by
  intro s
  induction s with
  | nil => intro h; cases h
  | cons c rest ih =>
    intro h
    by_cases hc : c = '?'
    · exact ⟨[], rest, by simp [hc], by simp⟩
    · have h' : '?' ∈ rest := by
        cases h with
        | head => exact absurd rfl hc
        | tail _ hm => exact hm
      obtain ⟨pre, suf, hsp, hpre⟩ := ih h'
      refine ⟨c :: pre, suf, by rw [List.cons_append, ← hsp], ?_⟩
      intro habs
      cases habs with
      | head => exact hc rfl
      | tail _ hm => exact hpre hm

theorem replaceFirstQ_split : ∀ (pre : Str), '?' ∉ pre → ∀ (suf rep : Str),
    replaceFirstQ (pre ++ '?' :: suf) rep = pre ++ rep ++ suf := by
  intro pre hpre
  induction pre with
  | nil => intro suf rep; simp [replaceFirstQ]
  | cons c rest ih =>
    intro suf rep
    have hc : c ≠ '?' := fun habs => hpre (habs ▸ List.mem_cons_self c rest)
    have hrest : '?' ∉ rest := fun habs => hpre (List.mem_cons_of_mem c habs)
    simp only [List.cons_append, replaceFirstQ, if_neg hc, List.append_eq]
    rw [ih hrest]

theorem qCount_append (a b : Str) : qCount (a ++ b) = qCount a + qCount b := by
  simp [qCount, List.count_append]

theorem qCount_of_no_q (s : Str) (h : '?' ∉ s) : qCount s = 0 :=
  List.count_eq_zero.mpr h

theorem toPGGo_eq_renum : ∀ (n : Nat) (s : Str), qCount s ≤ n → ∀ i, toPGGo s i = renum s i := by
  intro n
  induction n with
  | zero =>
    intro s hs i
    have hnm : '?' ∉ s := by
      intro hmem
      have hpos := List.count_pos_iff.mpr hmem
      simp only [qCount] at hs
      omega
    rw [toPGGo, dif_neg hnm, renum_of_no_q s hnm i]
  | succ m ih =>
    intro s hs i
    by_cases h : '?' ∈ s
    · obtain ⟨pre, suf, hsp, hpre⟩ := first_q_split s h
      subst hsp
      rw [toPGGo, dif_pos h, replaceFirstQ_split pre hpre suf (dollar i)]
      have hd0 : qCount (dollar i) = 0 := qCount_of_no_q _ (dollar_no_q i)
      have hp0 : qCount pre = 0 := qCount_of_no_q _ hpre
      have hcons : qCount ('?' :: suf) = qCount suf + 1 := by
        simp [qCount, List.count_cons]
      have hq2 : qCount (pre ++ '?' :: suf) = qCount suf + 1 := by
        rw [qCount_append]
        omega
      have hle : qCount (pre ++ dollar i ++ suf) ≤ m := by
        rw [qCount_append, qCount_append, hd0, hp0]
        omega
      rw [ih _ hle (i + 1)]
      rw [List.append_assoc, renum_no_q_prefix pre hpre _ (i + 1),
        renum_no_q_prefix (dollar i) (dollar_no_q i) suf (i + 1),
        renum_no_q_prefix pre hpre ('?' :: suf) i]
      simp [renum]
    · rw [toPGGo, dif_neg h, renum_of_no_q s h i]

/-- Claim C5: `toPostgresTemplate` replaces the k-th question mark of the
template, in left-to-right textual order, with the 1-based positional
marker `$k`, renumbering every placeholder consistently across the full
statement in one pass (`renum` is the specification-side renumbering); the
statement builders of src/driver.ts all hand their finished statement text
to this same rewrite. -/
theorem toPostgresTemplate_renumbers_placeholders :
    ∀ s : Str, toPostgresTemplate s = renum s 1 := by
  intro s
  exact toPGGo_eq_renum (qCount s) s (le_refl _) 1

/-! ### Identifier case conversion (src/utils.ts) -/

theorem alnum_char_facts : ∀ c ∈ alnumChars,
    c ≠ '_' ∧ (c.toLower ≠ c → (c.toLower ≠ '_' ∧ c.toLower.toUpper = c)) := by decide

theorem lower_alpha_facts : ∀ c ∈ lowerAlpha,
    c ≠ '_' ∧ c.toUpper.toLower = c ∧ c.toUpper.toLower ≠ c.toUpper := by decide

theorem lower_alnum_facts : ∀ c ∈ lowerAlnum, c.toLower = c ∧ c ≠ '_' := by decide

theorem camel_snake_aux : ∀ x : Str, isCamelStr x → camelGo (toSnakeCase x) false = x := by
  intro x
  induction x with
  | nil => intro _; rfl
  | cons c rest ih =>
    intro hx
    have hc : c ∈ alnumChars := hx c (List.mem_cons_self c rest)
    have hrest : isCamelStr rest := fun d hd => hx d (List.mem_cons_of_mem c hd)
    have hfacts := alnum_char_facts c hc
    by_cases hlow : c.toLower ≠ c
    · obtain ⟨hlowne, hupper⟩ := hfacts.2 hlow
      have h1 : toSnakeCase (c :: rest) = '_' :: c.toLower :: toSnakeCase rest := by
        simp [toSnakeCase, hlow]
      rw [h1]
      have h2 : camelGo ('_' :: c.toLower :: toSnakeCase rest) false =
          c.toLower.toUpper :: camelGo (toSnakeCase rest) false := by
        simp [camelGo, hlowne]
      rw [h2, hupper, ih hrest]
    · push_neg at hlow
      have h1 : toSnakeCase (c :: rest) = c :: toSnakeCase rest := by
        simp [toSnakeCase, hlow]
      rw [h1]
      have h2 : camelGo (c :: toSnakeCase rest) false =
          c.toLower :: camelGo (toSnakeCase rest) false := by
        simp [camelGo, hfacts.1]
      rw [h2, hlow, ih hrest]

theorem snake_camel_aux : ∀ y : Str,
    (isSnakeStr y = true → toSnakeCase (camelGo y false) = y) ∧
    (∀ d rest', y = d :: rest' → d ∈ lowerAlpha → isSnakeStr y = true →
      toSnakeCase (camelGo y true) = '_' :: y) := by
  intro y
  induction y with
  | nil =>
    refine ⟨fun _ => rfl, ?_⟩
    intro d rest' h
    cases h
  | cons c rest ih =>
    constructor
    · intro hs
      by_cases hc : c = '_'
      · subst hc
        cases rest with
        | nil => exact absurd hs (by decide)
        | cons d rest' =>
          have hdef : (decide (d ∈ lowerAlpha) && isSnakeStr (d :: rest')) = true := hs
          obtain ⟨hd, hrest⟩ := Bool.and_eq_true_iff.mp hdef
          have hgo : camelGo ('_' :: d :: rest') false = camelGo (d :: rest') true := by
            simp [camelGo]
          rw [hgo]
          exact ih.2 d rest' rfl (of_decide_eq_true hd) hrest
      · have hdef : (decide (c ∈ lowerAlnum) && isSnakeStr rest) = true := by
          simpa [isSnakeStr, hc] using hs
        obtain ⟨hcmem, hrest⟩ := Bool.and_eq_true_iff.mp hdef
        have hcm : c ∈ lowerAlnum := of_decide_eq_true hcmem
        obtain ⟨hcl, hcne⟩ := lower_alnum_facts c hcm
        have hgo : camelGo (c :: rest) false = c.toLower :: camelGo rest false := by
          simp [camelGo, hcne]
        rw [hgo, hcl]
        have hsnake : toSnakeCase (c :: camelGo rest false) =
            c :: toSnakeCase (camelGo rest false) := by
          simp [toSnakeCase, hcl]
        rw [hsnake, ih.1 hrest]
    · intro d rest' heq hd hs
      injection heq with he1 he2
      subst he1
      subst he2
      obtain ⟨hcne, hul, hulne⟩ := lower_alpha_facts c hd
      have hdef : (decide (c ∈ lowerAlnum) && isSnakeStr rest) = true := by
        simpa [isSnakeStr, hcne] using hs
      obtain ⟨_, hrest⟩ := Bool.and_eq_true_iff.mp hdef
      have hgo : camelGo (c :: rest) true = c.toUpper :: camelGo rest false := by
        simp [camelGo, hcne]
      rw [hgo]
      have hsnake : toSnakeCase (c.toUpper :: camelGo rest false) =
          '_' :: c.toUpper.toLower :: toSnakeCase (camelGo rest false) := by
        simp [toSnakeCase, hulne]
      rw [hsnake, hul, ih.1 hrest]

/-- Claim C3 (amended): for identifiers of ASCII letters and digits the two
conversions are mutually inverse — application-convention identifiers
(ASCII letters and digits only) survive `toCamelCase ∘ toSnakeCase`, and
storage-convention identifiers in which every underscore is immediately
followed by a lower-case letter survive `toSnakeCase ∘ toCamelCase`. -/
theorem case_conversion_roundtrip :
    (∀ x : Str, isCamelStr x → toCamelCase (toSnakeCase x) = x) ∧
    (∀ y : Str, isSnakeStr y = true → toSnakeCase (toCamelCase y) = y) := by
  constructor
  · intro x hx
    exact camel_snake_aux x hx
  · intro y hy
    exact (snake_camel_aux y).1 hy

/-- Claim C3 counterexample: `value_1` consists of lower-case ASCII letters
and digits with its single word boundary marked by an underscore, yet the
storage-side roundtrip drops the underscore, because the character
following it is a digit and upper-casing a digit is the identity. -/
theorem case_conversion_roundtrip_cex :
    toSnakeCase (toCamelCase (cs "value_1")) ≠ cs "value_1" := by decide

theorem case_conversion_roundtrip_witness :
    (isCamelStr (cs "helloWorld2") ∧
      toCamelCase (toSnakeCase (cs "helloWorld2")) = cs "helloWorld2") ∧
    (isSnakeStr (cs "hello_world2") = true ∧
      toSnakeCase (toCamelCase (cs "hello_world2")) = cs "hello_world2") :=
  ⟨⟨by decide, case_conversion_roundtrip.1 (cs "helloWorld2") (by decide)⟩,
   ⟨by decide, case_conversion_roundtrip.2 (cs "hello_world2") (by decide)⟩⟩

/-! ### Placeholder and value correspondence of the filter compiler -/

theorem renderToks_append : ∀ a b : List SqlTok,
    renderToks (a ++ b) = renderToks a ++ renderToks b := by
  intro a b
  induction a with
  | nil => rfl
  | cons t rest ih =>
    cases t with
    | lit s => simp [renderToks, ih]
    | hole v => simp [renderToks, ih]

theorem tokValues_append : ∀ a b : List SqlTok,
    tokValues (a ++ b) = tokValues a ++ tokValues b := by
  intro a b
  induction a with
  | nil => rfl
  | cons t rest ih =>
    cases t with
    | lit s => simp [tokValues, ih]
    | hole v => simp [tokValues, ih]

theorem count_renderToks : ∀ ts : List SqlTok, (∀ t ∈ ts, litQFree t) →
    qCount (renderToks ts) = (tokValues ts).length := by
  intro ts
  induction ts with
  | nil => intro _; rfl
  | cons t rest ih =>
    intro h
    have hrest := ih fun u hu => h u (List.mem_cons_of_mem t hu)
    cases t with
    | lit s =>
      have hs : '?' ∉ s := h (SqlTok.lit s) (List.mem_cons_self _ _)
      simp only [renderToks, tokValues, qCount_append, qCount_of_no_q s hs]
      omega
    | hole v =>
      simp only [renderToks, tokValues, List.length_cons]
      have hq : qCount ('?' :: renderToks rest) = qCount (renderToks rest) + 1 := by
        simp [qCount, List.count_cons]
      omega

theorem no_q_append {a b : Str} (ha : '?' ∉ a) (hb : '?' ∉ b) : '?' ∉ a ++ b := by
  intro habs
  rcases List.mem_append.mp habs with h | h
  · exact ha h
  · exact hb h

theorem renderToks_lit_hole (a : Str) (v : SqlValue) :
    renderToks [SqlTok.lit a, SqlTok.hole v] = a ++ ['?'] := by
  simp [renderToks]

theorem renderToks_first_if (first : Bool) (sep : Str) :
    renderToks (if first then [] else [SqlTok.lit sep]) = (if first then [] else sep) := by
  cases first <;> simp [renderToks]

theorem tokValues_first_if (first : Bool) (sep : Str) :
    tokValues (if first then [] else [SqlTok.lit sep]) = [] := by
  cases first <;> simp [tokValues]

theorem inSub_toks_spec : ∀ (fieldSql : Str), '?' ∉ fieldSql →
    ∀ (vs : List SqlValue) (first : Bool),
      renderToks (inSubToks fieldSql vs first) = inSub fieldSql vs first ∧
      tokValues (inSubToks fieldSql vs first) = vs ∧
      ∀ t ∈ inSubToks fieldSql vs first, litQFree t := by
  intro fieldSql hf vs
  induction vs with
  | nil =>
    intro first
    exact ⟨rfl, rfl, fun t ht => absurd ht (List.not_mem_nil t)⟩
  | cons v rest ih =>
    intro first
    obtain ⟨ihr, ihv, ihq⟩ := ih false
    refine ⟨?_, ?_, ?_⟩
    · simp only [inSubToks, inSub, renderToks_append, renderToks_first_if, renderToks,
        List.append_assoc, List.cons_append, List.nil_append, List.append_eq]
      rw [ihr]
      rfl
    · simp only [inSubToks, tokValues_append, tokValues_first_if, tokValues,
        List.append_assoc, List.cons_append, List.nil_append, List.append_eq]
      rw [ihv]
    · intro t ht
      simp only [inSubToks] at ht
      rcases List.mem_append.mp ht with h1 | h2
      · rcases List.mem_append.mp h1 with h0 | hmid
        · cases first with
          | true => simp at h0
          | false =>
            simp at h0
            subst h0
            show '?' ∉ cs " OR "
            decide
        · simp only [List.mem_cons, List.mem_singleton] at hmid
          rcases hmid with h | h | h
          · subst h
            exact no_q_append (no_q_append (by decide) hf) (by decide)
          · subst h
            trivial
          · simp at h
            subst h
            show '?' ∉ cs ")"
            decide
      · exact ihq t h2

theorem inSub_cons_ne_nil : ∀ (fieldSql : Str) (v : SqlValue) (rest : List SqlValue),
    inSub fieldSql (v :: rest) true ≠ [] := by
  intro fieldSql v rest habs
  simp only [inSub, if_pos rfl, List.nil_append] at habs
  rw [List.append_assoc, List.append_assoc] at habs
  have := List.append_eq_nil.mp habs
  simp [cs] at this

theorem keysOfList_mem : ∀ (children : List GFilter) (c : GFilter), c ∈ children →
    ∀ k ∈ keysOf c, k ∈ keysOfList children := by
  intro children
  induction children with
  | nil => intro c hc; cases hc
  | cons d rest ih =>
    intro c hc k hk
    simp only [keysOfList]
    cases hc with
    | head => exact List.mem_append.mpr (Or.inl hk)
    | tail _ hm => exact List.mem_append.mpr (Or.inr (ih c hm k hk))

theorem seqGood_of : ∀ (conv : Str → Str) (sep : Str), '?' ∉ sep →
    ∀ children : List GFilter, (∀ c ∈ children, GoodF c conv) →
    ∀ first, SeqGood children conv sep first := by
  intro conv sep hsep children
  induction children with
  | nil =>
    intro _ first
    exact ⟨rfl, rfl, fun t ht => absurd ht (List.not_mem_nil t)⟩
  | cons c rest ih =>
    intro hall first
    obtain ⟨hcr, hcv, hcq⟩ := hall c (List.mem_cons_self _ _)
    have ihall := ih fun d hd => hall d (List.mem_cons_of_mem c hd)
    by_cases hlen : (filterToSQL c conv).1.length > 0
    · obtain ⟨hrr, hrv, hrq⟩ := ihall false
      have hseqC : seqChildren (c :: rest) conv sep first =
          ((if first then [] else sep) ++ cs "( " ++ (filterToSQL c conv).1 ++ cs " )" ++
             (seqChildren rest conv sep false).1,
           (filterToSQL c conv).2 ++ (seqChildren rest conv sep false).2) := by
        simp only [seqChildren]
        rw [if_pos hlen]
      have hseqT : seqToks (c :: rest) conv sep first =
          (if first then [] else [SqlTok.lit sep]) ++
            SqlTok.lit (cs "( ") :: filterToToks c conv ++ [SqlTok.lit (cs " )")] ++
            seqToks rest conv sep false := by
        simp only [seqToks]
        rw [if_pos hlen]
      refine ⟨?_, ?_, ?_⟩
      · rw [hseqT, hseqC]
        simp only [renderToks_append, renderToks_first_if, renderToks,
          List.append_assoc, List.cons_append, List.nil_append, List.append_eq]
        rw [hcr, hrr]
      · rw [hseqT, hseqC]
        simp only [tokValues_append, tokValues_first_if, tokValues,
          List.append_assoc, List.cons_append, List.nil_append, List.append_eq]
        rw [hcv, hrv]
      · intro t ht
        rw [hseqT] at ht
        rcases List.mem_append.mp ht with h1 | h2
        · rcases List.mem_append.mp h1 with h3 | h4
          · rcases List.mem_append.mp h3 with h5 | h6
            · cases first with
              | true => simp at h5
              | false =>
                simp at h5
                subst h5
                exact hsep
            · rcases List.mem_cons.mp h6 with h | h
              · subst h
                show '?' ∉ cs "( "
                decide
              · exact hcq t h
          · simp at h4
            subst h4
            show '?' ∉ cs " )"
            decide
        · exact hrq t h2
    · have hseqC : seqChildren (c :: rest) conv sep first = seqChildren rest conv sep first := by
        simp only [seqChildren]
        rw [if_neg hlen]
      have hseqT : seqToks (c :: rest) conv sep first = seqToks rest conv sep first := by
        simp only [seqToks]
        rw [if_neg hlen]
      obtain ⟨h1, h2, h3⟩ := ihall first
      exact ⟨by rw [hseqT, hseqC]; exact h1, by rw [hseqT, hseqC]; exact h2,
        by rw [hseqT]; exact h3⟩

theorem goodF_all : ∀ (n : Nat) (f : GFilter), sizeOf f ≤ n →
    ∀ conv : Str → Str, (∀ k ∈ keysOf f, '?' ∉ conv k) → GoodF f conv := by
  intro n
  induction n with
  | zero =>
    intro f hf
    exfalso
    cases f <;> simp_arith at hf
  | succ m ih =>
    intro f hf conv hkeys
    cases f with
    | nullF =>
      refine ⟨rfl, rfl, ?_⟩
      intro t ht
      simp [filterToToks] at ht
    | andF children =>
      have hchild : ∀ c ∈ children, GoodF c conv := by
        intro c hcmem
        have h1 : sizeOf c < sizeOf children := List.sizeOf_lt_of_mem hcmem
        have h2 : sizeOf (GFilter.andF children) = 1 + sizeOf children := by simp
        have hsz : sizeOf c ≤ m := by omega
        refine ih c hsz conv ?_
        intro k hk
        refine hkeys k ?_
        simp only [keysOf]
        exact keysOfList_mem children c hcmem k hk
      obtain ⟨h1, h2, h3⟩ := seqGood_of conv (cs " AND ") (by decide) children hchild true
      have e1 : filterToToks (GFilter.andF children) conv =
          seqToks children conv (cs " AND ") true := by
        simp only [filterToToks]
      have e2 : filterToSQL (GFilter.andF children) conv =
          seqChildren children conv (cs " AND ") true := by
        simp only [filterToSQL]
      exact ⟨by rw [e1, e2]; exact h1, by rw [e1, e2]; exact h2, by rw [e1]; exact h3⟩
    | orF children =>
      have hchild : ∀ c ∈ children, GoodF c conv := by
        intro c hcmem
        have h1 : sizeOf c < sizeOf children := List.sizeOf_lt_of_mem hcmem
        have h2 : sizeOf (GFilter.orF children) = 1 + sizeOf children := by simp
        have hsz : sizeOf c ≤ m := by omega
        refine ih c hsz conv ?_
        intro k hk
        refine hkeys k ?_
        simp only [keysOf]
        exact keysOfList_mem children c hcmem k hk
      obtain ⟨h1, h2, h3⟩ := seqGood_of conv (cs " OR ") (by decide) children hchild true
      have e1 : filterToToks (GFilter.orF children) conv =
          seqToks children conv (cs " OR ") true := by
        simp only [filterToToks]
      have e2 : filterToSQL (GFilter.orF children) conv =
          seqChildren children conv (cs " OR ") true := by
        simp only [filterToSQL]
      exact ⟨by rw [e1, e2]; exact h1, by rw [e1, e2]; exact h2, by rw [e1]; exact h3⟩
    | notF child =>
      have h2 : sizeOf (GFilter.notF child) = 1 + sizeOf child := by simp
      have hsz : sizeOf child ≤ m := by omega
      have hchild := ih child hsz conv (by
        intro k hk
        apply hkeys
        simpa [keysOf] using hk)
      obtain ⟨hcr, hcv, hcq⟩ := hchild
      by_cases hlen : (filterToSQL child conv).1.length > 0
      · have e2 : filterToSQL (GFilter.notF child) conv =
            (cs "NOT( " ++ (filterToSQL child conv).1 ++ cs " )",
             (filterToSQL child conv).2) := by
          simp only [filterToSQL]
          rw [if_pos hlen]
        have e1 : filterToToks (GFilter.notF child) conv =
            SqlTok.lit (cs "NOT( ") :: filterToToks child conv ++ [SqlTok.lit (cs " )")] := by
          simp only [filterToToks]
          rw [if_pos hlen]
        refine ⟨?_, ?_, ?_⟩
        · rw [e1, e2]
          simp only [renderToks, renderToks_append, List.append_nil, List.append_assoc,
            List.append_eq]
          rw [hcr]
        · rw [e1, e2]
          simp only [tokValues, tokValues_append, List.append_nil, List.append_eq]
          rw [hcv]
        · intro t ht
          rw [e1] at ht
          rcases List.mem_cons.mp ht with h | h
          · subst h
            show '?' ∉ cs "NOT( "
            decide
          · rcases List.mem_append.mp h with h3 | h4
            · exact hcq t h3
            · simp at h4
              subst h4
              show '?' ∉ cs " )"
              decide
      · have e2 : filterToSQL (GFilter.notF child) conv = ([], []) := by
          simp only [filterToSQL]
          rw [if_neg hlen]
        have e1 : filterToToks (GFilter.notF child) conv = [] := by
          simp only [filterToToks]
          rw [if_neg hlen]
        exact ⟨by rw [e1, e2]; rfl, by rw [e1, e2]; rfl, by rw [e1]; intro t ht; cases ht⟩
    | regexF key source flags =>
      have hkey : '?' ∉ conv key := hkeys key (by simp [keysOf])
      by_cases hflag : flags.contains 'i' = true
      · have e2 : filterToSQL (GFilter.regexF key source flags) conv =
            (cs "UPPER(\"" ++ conv key ++ cs "\") LIKE UPPER(?)",
             [SqlValue.strV
                (if strStartsWith (reverseRegexp source) '^' then
                  replaceLikeWildcards ((reverseRegexp source).drop 1) ++ cs "%"
                 else if strEndsWith (reverseRegexp source) '$' then
                  cs "%" ++ replaceLikeWildcards (reverseRegexp source).dropLast
                 else cs "%" ++ replaceLikeWildcards (reverseRegexp source) ++ cs "%")]) := by
          simp only [filterToSQL]
          rw [if_pos hflag]
        have e1 : filterToToks (GFilter.regexF key source flags) conv =
            [SqlTok.lit (cs "UPPER(\"" ++ conv key ++ cs "\") LIKE UPPER("),
             SqlTok.hole (SqlValue.strV
                (if strStartsWith (reverseRegexp source) '^' then
                  replaceLikeWildcards ((reverseRegexp source).drop 1) ++ cs "%"
                 else if strEndsWith (reverseRegexp source) '$' then
                  cs "%" ++ replaceLikeWildcards (reverseRegexp source).dropLast
                 else cs "%" ++ replaceLikeWildcards (reverseRegexp source) ++ cs "%")),
             SqlTok.lit (cs ")")] := by
          simp only [filterToToks]
          rw [if_pos hflag]
        refine ⟨?_, ?_, ?_⟩
        · rw [e1, e2]
          simp only [renderToks, List.append_nil, List.append_assoc]
          rfl
        · rw [e1, e2]
          rfl
        · intro t ht
          rw [e1] at ht
          simp only [List.mem_cons, List.mem_singleton] at ht
          rcases ht with h | h | h
          · subst h
            exact no_q_append (no_q_append (by decide) hkey) (by decide)
          · subst h
            trivial
          · simp at h
            subst h
            show '?' ∉ cs ")"
            decide
      · have e2 : filterToSQL (GFilter.regexF key source flags) conv =
            (cs "\"" ++ conv key ++ cs "\" LIKE ?",
             [SqlValue.strV
                (if strStartsWith (reverseRegexp source) '^' then
                  replaceLikeWildcards ((reverseRegexp source).drop 1) ++ cs "%"
                 else if strEndsWith (reverseRegexp source) '$' then
                  cs "%" ++ replaceLikeWildcards (reverseRegexp source).dropLast
                 else cs "%" ++ replaceLikeWildcards (reverseRegexp source) ++ cs "%")]) := by
          simp only [filterToSQL]
          rw [if_neg hflag]
        have e1 : filterToToks (GFilter.regexF key source flags) conv =
            [SqlTok.lit (cs "\"" ++ conv key ++ cs "\" LIKE "),
             SqlTok.hole (SqlValue.strV
                (if strStartsWith (reverseRegexp source) '^' then
                  replaceLikeWildcards ((reverseRegexp source).drop 1) ++ cs "%"
                 else if strEndsWith (reverseRegexp source) '$' then
                  cs "%" ++ replaceLikeWildcards (reverseRegexp source).dropLast
                 else cs "%" ++ replaceLikeWildcards (reverseRegexp source) ++ cs "%"))] := by
          simp only [filterToToks]
          rw [if_neg hflag]
        refine ⟨?_, ?_, ?_⟩
        · rw [e1, e2, renderToks_lit_hole]
          simp only [List.append_assoc]
          rfl
        · rw [e1, e2]
          rfl
        · intro t ht
          rw [e1] at ht
          simp only [List.mem_cons, List.mem_singleton] at ht
          rcases ht with h | h
          · subst h
            exact no_q_append (no_q_append (by decide) hkey) (by decide)
          · simp at h
            subst h
            trivial
    | inF key vs =>
      have hkey : '?' ∉ conv key := hkeys key (by simp [keysOf])
      obtain ⟨hir, hiv, hiq⟩ := inSub_toks_spec (conv key) hkey vs true
      by_cases hlen : (inSub (conv key) vs true).length > 0
      · have e2 : filterToSQL (GFilter.inF key vs) conv =
            (cs "(" ++ inSub (conv key) vs true ++ cs ")", vs) := by
          simp only [filterToSQL]
          rw [if_pos hlen]
        have e1 : filterToToks (GFilter.inF key vs) conv =
            SqlTok.lit (cs "(") :: inSubToks (conv key) vs true ++ [SqlTok.lit (cs ")")] := by
          simp only [filterToToks]
          rw [if_pos hlen]
        refine ⟨?_, ?_, ?_⟩
        · rw [e1, e2]
          simp only [renderToks, renderToks_append, List.append_nil, List.append_assoc,
            List.append_eq]
          rw [hir]
        · rw [e1, e2]
          simp only [tokValues, tokValues_append, List.append_nil, List.append_eq]
          rw [hiv]
        · intro t ht
          rw [e1] at ht
          rcases List.mem_cons.mp ht with h | h
          · subst h
            show '?' ∉ cs "("
            decide
          · rcases List.mem_append.mp h with h3 | h4
            · exact hiq t h3
            · simp at h4
              subst h4
              show '?' ∉ cs ")"
              decide
      · have hnil : inSub (conv key) vs true = [] := by
          have hz : (inSub (conv key) vs true).length = 0 := by omega
          exact List.length_eq_zero.mp hz
        have hvs : vs = [] := by
          cases vs with
          | nil => rfl
          | cons v rest => exact absurd hnil (inSub_cons_ne_nil (conv key) v rest)
        subst hvs
        have e2 : filterToSQL (GFilter.inF key []) conv = ([], []) := by
          simp only [filterToSQL]
          rw [if_neg hlen]
        have e1 : filterToToks (GFilter.inF key []) conv = [] := by
          simp only [filterToToks]
          rw [if_neg hlen]
        exact ⟨by rw [e1, e2]; rfl, by rw [e1, e2]; rfl, by rw [e1]; intro t ht; cases ht⟩
    | existsF key ex =>
      have hkey : '?' ∉ conv key := hkeys key (by simp [keysOf])
      cases ex with
      | true =>
        refine ⟨by simp [filterToToks, filterToSQL, renderToks], rfl, ?_⟩
        intro t ht
        simp [filterToToks] at ht
        subst ht
        exact no_q_append (by decide) (no_q_append hkey (by decide))
      | false =>
        refine ⟨by simp [filterToToks, filterToSQL, renderToks], rfl, ?_⟩
        intro t ht
        simp [filterToToks] at ht
        subst ht
        exact no_q_append (by decide) (no_q_append hkey (by decide))
    | eqF key v =>
      have hkey : '?' ∉ conv key := hkeys key (by simp [keysOf])
      by_cases hv : v = SqlValue.nullV
      · subst hv
        refine ⟨by simp [filterToToks, filterToSQL, renderToks], rfl, ?_⟩
        intro t ht
        simp [filterToToks] at ht
        subst ht
        exact no_q_append (by decide) (no_q_append hkey (by decide))
      · have e2 : filterToSQL (GFilter.eqF key v) conv =
            (cs "\"" ++ conv key ++ cs "\" = ?", [v]) := by
          simp only [filterToSQL]
          rw [if_neg hv]
        have e1 : filterToToks (GFilter.eqF key v) conv =
            [SqlTok.lit (cs "\"" ++ conv key ++ cs "\" = "), SqlTok.hole v] := by
          simp only [filterToToks]
          rw [if_neg hv]
        refine ⟨?_, ?_, ?_⟩
        · rw [e1, e2, renderToks_lit_hole]
          simp only [List.append_assoc]
          rfl
        · rw [e1, e2]
          rfl
        · intro t ht
          rw [e1] at ht
          simp only [List.mem_cons, List.mem_singleton] at ht
          rcases ht with h | h
          · subst h
            exact no_q_append (no_q_append (by decide) hkey) (by decide)
          · simp at h
            subst h
            trivial
    | neF key v =>
      have hkey : '?' ∉ conv key := hkeys key (by simp [keysOf])
      by_cases hv : v = SqlValue.nullV
      · subst hv
        refine ⟨by simp [filterToToks, filterToSQL, renderToks], rfl, ?_⟩
        intro t ht
        simp [filterToToks] at ht
        subst ht
        exact no_q_append (by decide) (no_q_append hkey (by decide))
      · have e2 : filterToSQL (GFilter.neF key v) conv =
            (cs "\"" ++ conv key ++ cs "\" != ?", [v]) := by
          simp only [filterToSQL]
          rw [if_neg hv]
        have e1 : filterToToks (GFilter.neF key v) conv =
            [SqlTok.lit (cs "\"" ++ conv key ++ cs "\" != "), SqlTok.hole v] := by
          simp only [filterToToks]
          rw [if_neg hv]
        refine ⟨?_, ?_, ?_⟩
        · rw [e1, e2, renderToks_lit_hole]
          simp only [List.append_assoc]
          rfl
        · rw [e1, e2]
          rfl
        · intro t ht
          rw [e1] at ht
          simp only [List.mem_cons, List.mem_singleton] at ht
          rcases ht with h | h
          · subst h
            exact no_q_append (no_q_append (by decide) hkey) (by decide)
          · simp at h
            subst h
            trivial
    | gtF key v =>
      have hkey : '?' ∉ conv key := hkeys key (by simp [keysOf])
      refine ⟨?_, rfl, ?_⟩
      · show renderToks [SqlTok.lit (cs "\"" ++ conv key ++ cs "\" > "), SqlTok.hole v] =
          (cs "\"" ++ conv key ++ cs "\" > ?", [v]).1
        rw [renderToks_lit_hole]
        simp only [List.append_assoc]
        rfl
      · intro t ht
        simp only [filterToToks, List.mem_cons, List.mem_singleton] at ht
        rcases ht with h | h
        · subst h
          exact no_q_append (no_q_append (by decide) hkey) (by decide)
        · simp at h
          subst h
          trivial
    | ltF key v =>
      have hkey : '?' ∉ conv key := hkeys key (by simp [keysOf])
      refine ⟨?_, rfl, ?_⟩
      · show renderToks [SqlTok.lit (cs "\"" ++ conv key ++ cs "\" < "), SqlTok.hole v] =
          (cs "\"" ++ conv key ++ cs "\" < ?", [v]).1
        rw [renderToks_lit_hole]
        simp only [List.append_assoc]
        rfl
      · intro t ht
        simp only [filterToToks, List.mem_cons, List.mem_singleton] at ht
        rcases ht with h | h
        · subst h
          exact no_q_append (no_q_append (by decide) hkey) (by decide)
        · simp at h
          subst h
          trivial
    | gteF key v =>
      have hkey : '?' ∉ conv key := hkeys key (by simp [keysOf])
      refine ⟨?_, rfl, ?_⟩
      · show renderToks [SqlTok.lit (cs "\"" ++ conv key ++ cs "\" >= "), SqlTok.hole v] =
          (cs "\"" ++ conv key ++ cs "\" >= ?", [v]).1
        rw [renderToks_lit_hole]
        simp only [List.append_assoc]
        rfl
      · intro t ht
        simp only [filterToToks, List.mem_cons, List.mem_singleton] at ht
        rcases ht with h | h
        · subst h
          exact no_q_append (no_q_append (by decide) hkey) (by decide)
        · simp at h
          subst h
          trivial
    | lteF key v =>
      have hkey : '?' ∉ conv key := hkeys key (by simp [keysOf])
      refine ⟨?_, rfl, ?_⟩
      · show renderToks [SqlTok.lit (cs "\"" ++ conv key ++ cs "\" <= "), SqlTok.hole v] =
          (cs "\"" ++ conv key ++ cs "\" <= ?", [v]).1
        rw [renderToks_lit_hole]
        simp only [List.append_assoc]
        rfl
      · intro t ht
        simp only [filterToToks, List.mem_cons, List.mem_singleton] at ht
        rcases ht with h | h
        · subst h
          exact no_q_append (no_q_append (by decide) hkey) (by decide)
        · simp at h
          subst h
          trivial

/-- Claim C1 (amended): for every filter node, of any kind and nesting,
whose identifier-converted field names contain no question-mark character,
the pair returned by `filterToSQL` satisfies the placeholder/value
correspondence: the number of question marks in the fragment equals the
length of the values list, and the structured token decomposition
`filterToToks` — whose literal segments are all question-mark free and
whose holes carry the values — renders to exactly the compiled fragment,
so the i-th question mark of the fragment, in left-to-right textual order,
is the placeholder of the i-th bound value. -/
theorem filterToSQL_placeholder_value_correspondence :
    ∀ (f : GFilter) (conv : Str → Str), (∀ k ∈ keysOf f, '?' ∉ conv k) →
      qCount (filterToSQL f conv).1 = (filterToSQL f conv).2.length ∧
      renderToks (filterToToks f conv) = (filterToSQL f conv).1 ∧
      tokValues (filterToToks f conv) = (filterToSQL f conv).2 ∧
      ∀ t ∈ filterToToks f conv, litQFree t := by
  intro f conv h
  obtain ⟨h1, h2, h3⟩ := goodF_all (sizeOf f) f (le_refl _) conv h
  refine ⟨?_, h1, h2, h3⟩
  rw [← h1, ← h2]
  exact count_renderToks _ h3

/-- Claim C1 counterexample: under the default identifier conversion, an
`eq` node whose field name contains a question mark compiles to a fragment
with two question-mark characters but a single bound value, so the count
equality of the claim fails without the field-name hypothesis. -/
theorem filterToSQL_placeholder_count_cex :
    qCount (filterToSQL (GFilter.eqF (cs "a?") (SqlValue.intV 5)) toSnakeCase).1 ≠
      (filterToSQL (GFilter.eqF (cs "a?") (SqlValue.intV 5)) toSnakeCase).2.length := by
  decide

theorem filterToSQL_placeholder_value_correspondence_witness :
    (∀ k ∈ keysOf (GFilter.andF [GFilter.eqF (cs "age") (SqlValue.intV 5),
        GFilter.inF (cs "id") [SqlValue.intV 1, SqlValue.intV 2]]), '?' ∉ toSnakeCase k) ∧
    (qCount (filterToSQL (GFilter.andF [GFilter.eqF (cs "age") (SqlValue.intV 5),
        GFilter.inF (cs "id") [SqlValue.intV 1, SqlValue.intV 2]]) toSnakeCase).1 =
      (filterToSQL (GFilter.andF [GFilter.eqF (cs "age") (SqlValue.intV 5),
        GFilter.inF (cs "id") [SqlValue.intV 1, SqlValue.intV 2]]) toSnakeCase).2.length ∧
      renderToks (filterToToks (GFilter.andF [GFilter.eqF (cs "age") (SqlValue.intV 5),
        GFilter.inF (cs "id") [SqlValue.intV 1, SqlValue.intV 2]]) toSnakeCase) =
        (filterToSQL (GFilter.andF [GFilter.eqF (cs "age") (SqlValue.intV 5),
          GFilter.inF (cs "id") [SqlValue.intV 1, SqlValue.intV 2]]) toSnakeCase).1 ∧
      tokValues (filterToToks (GFilter.andF [GFilter.eqF (cs "age") (SqlValue.intV 5),
        GFilter.inF (cs "id") [SqlValue.intV 1, SqlValue.intV 2]]) toSnakeCase) =
        (filterToSQL (GFilter.andF [GFilter.eqF (cs "age") (SqlValue.intV 5),
          GFilter.inF (cs "id") [SqlValue.intV 1, SqlValue.intV 2]]) toSnakeCase).2 ∧
      ∀ t ∈ filterToToks (GFilter.andF [GFilter.eqF (cs "age") (SqlValue.intV 5),
        GFilter.inF (cs "id") [SqlValue.intV 1, SqlValue.intV 2]]) toSnakeCase, litQFree t) :=
  ⟨by decide,
   filterToSQL_placeholder_value_correspondence
     (GFilter.andF [GFilter.eqF (cs "age") (SqlValue.intV 5),
       GFilter.inF (cs "id") [SqlValue.intV 1, SqlValue.intV 2]]) toSnakeCase (by decide)⟩

/-! ### Regex translation (src/filtering.ts case "regex", src/utils.ts) -/

theorem replaceLikeWildcards_eq_specEscape :
    ∀ s : Str, replaceLikeWildcards s = specEscape s := by
  intro s
  induction s with
  | nil => rfl
  | cons c rest ih =>
    have ih' : replaceUnderscore (replacePercent rest) = specEscape rest := ih
    by_cases hp : c = '%'
    · subst hp
      show replaceUnderscore (replacePercent ('%' :: rest)) = specEscape ('%' :: rest)
      rw [show replacePercent ('%' :: rest) = '\\' :: '%' :: replacePercent rest from rfl]
      rw [show replaceUnderscore ('\\' :: '%' :: replacePercent rest) =
          '\\' :: '%' :: replaceUnderscore (replacePercent rest) from rfl]
      rw [show specEscape ('%' :: rest) = '\\' :: '%' :: specEscape rest from rfl]
      rw [ih']
    · by_cases hu : c = '_'
      · subst hu
        show replaceUnderscore (replacePercent ('_' :: rest)) = specEscape ('_' :: rest)
        rw [show replacePercent ('_' :: rest) = '_' :: replacePercent rest from rfl]
        rw [show replaceUnderscore ('_' :: replacePercent rest) =
            '\\' :: '_' :: replaceUnderscore (replacePercent rest) from rfl]
        rw [show specEscape ('_' :: rest) = '\\' :: '_' :: specEscape rest from rfl]
        rw [ih']
      · have h1 : replacePercent (c :: rest) = c :: replacePercent rest := by
          simp only [replacePercent]
          rw [if_neg hp]
          rfl
        have h2 : replaceUnderscore (c :: replacePercent rest) =
            c :: replaceUnderscore (replacePercent rest) := by
          simp only [replaceUnderscore]
          rw [if_neg hu]
          rfl
        have h3 : specEscape (c :: rest) = c :: specEscape rest := by
          simp only [specEscape]
          rw [if_neg hp, if_neg hu]
        show replaceUnderscore (replacePercent (c :: rest)) = specEscape (c :: rest)
        rw [h1, h2, h3, ih']

/-- Claim C4: for every regex filter node, with `rStr` the regex source
stripped of one layer of backslash escaping (`reverseRegexp`), the compiled
fragment is a single-placeholder LIKE comparison — upper-cased on both
sides exactly when the flags contain the case-insensitive flag — and the
single bound value is the claimed anchored pattern built with the
specification-side escape that backslash-escapes every `%` and `_`
(`specLikePattern`). -/
theorem regex_filter_like_translation :
    ∀ (conv : Str → Str) (key source flags : Str),
      filterToSQL (GFilter.regexF key source flags) conv =
        ((if flags.contains 'i' then cs "UPPER(\"" ++ conv key ++ cs "\") LIKE UPPER(?)"
          else cs "\"" ++ conv key ++ cs "\" LIKE ?"),
         [SqlValue.strV (specLikePattern (reverseRegexp source))]) := by
  intro conv key source flags
  simp only [filterToSQL, specLikePattern, replaceLikeWildcards_eq_specEscape]

/-! ### Vacuous filters (src/filtering.ts) -/

theorem seqChildren_all_empty : ∀ (children : List GFilter) (conv : Str → Str) (sep : Str),
    (∀ c ∈ children, (filterToSQL c conv).1 = []) →
    ∀ first, seqChildren children conv sep first = ([], []) := by
  intro children conv sep
  induction children with
  | nil => intro _ first; rfl
  | cons c rest ih =>
    intro h first
    have hc : (filterToSQL c conv).1 = [] := h c (List.mem_cons_self _ _)
    have hlen : ¬(filterToSQL c conv).1.length > 0 := by
      rw [hc]
      simp
    have e : seqChildren (c :: rest) conv sep first = seqChildren rest conv sep first := by
      simp only [seqChildren]
      rw [if_neg hlen]
    rw [e]
    exact ih (fun d hd => h d (List.mem_cons_of_mem c hd)) first

/-- Claim C6: the null filter, a conjunction or disjunction with no
children or with only children compiling to empty fragments, a negation
whose child compiles to an empty fragment, and an `in` node with an empty
value list all compile to the empty fragment with an empty values list. -/
theorem vacuous_filters_compile_empty :
    ∀ conv : Str → Str,
      filterToSQL GFilter.nullF conv = ([], []) ∧
      filterToSQL (GFilter.andF []) conv = ([], []) ∧
      filterToSQL (GFilter.orF []) conv = ([], []) ∧
      (∀ children, (∀ c ∈ children, (filterToSQL c conv).1 = []) →
        filterToSQL (GFilter.andF children) conv = ([], [])) ∧
      (∀ children, (∀ c ∈ children, (filterToSQL c conv).1 = []) →
        filterToSQL (GFilter.orF children) conv = ([], [])) ∧
      (∀ child, (filterToSQL child conv).1 = [] →
        filterToSQL (GFilter.notF child) conv = ([], [])) ∧
      (∀ key, filterToSQL (GFilter.inF key []) conv = ([], [])) := by
  intro conv
  refine ⟨rfl, rfl, rfl, ?_, ?_, ?_, ?_⟩
  · intro children h
    have e : filterToSQL (GFilter.andF children) conv =
        seqChildren children conv (cs " AND ") true := by
      simp only [filterToSQL]
    rw [e]
    exact seqChildren_all_empty children conv (cs " AND ") h true
  · intro children h
    have e : filterToSQL (GFilter.orF children) conv =
        seqChildren children conv (cs " OR ") true := by
      simp only [filterToSQL]
    rw [e]
    exact seqChildren_all_empty children conv (cs " OR ") h true
  · intro child h
    have hlen : ¬(filterToSQL child conv).1.length > 0 := by
      rw [h]
      simp
    simp only [filterToSQL]
    rw [if_neg hlen]
  · intro key
    rfl

theorem vacuous_filters_compile_empty_witness :
    ((∀ c ∈ [GFilter.nullF], (filterToSQL c toSnakeCase).1 = []) ∧
      filterToSQL (GFilter.andF [GFilter.nullF]) toSnakeCase = ([], [])) ∧
    ((filterToSQL GFilter.nullF toSnakeCase).1 = [] ∧
      filterToSQL (GFilter.notF GFilter.nullF) toSnakeCase = ([], [])) :=
  ⟨⟨by decide, (vacuous_filters_compile_empty toSnakeCase).2.2.2.1 [GFilter.nullF] (by decide)⟩,
   ⟨by decide, (vacuous_filters_compile_empty toSnakeCase).2.2.2.2.2.1 GFilter.nullF (by decide)⟩⟩

/-! ### Equality and inequality nodes (src/filtering.ts) -/

/-- Claim C7: an `eq` node with a null or absent comparison value compiles
to `"field" IS NULL` with no bound value and otherwise to `"field" = ?`
with exactly that one bound value; an `ne` node mirrors this with
`"field" IS NOT NULL` and `"field" != ?`. -/
theorem eq_ne_filter_fragments :
    ∀ (conv : Str → Str) (key : Str),
      filterToSQL (GFilter.eqF key SqlValue.nullV) conv =
        (cs "\"" ++ conv key ++ cs "\" IS NULL", []) ∧
      filterToSQL (GFilter.neF key SqlValue.nullV) conv =
        (cs "\"" ++ conv key ++ cs "\" IS NOT NULL", []) ∧
      (∀ v : SqlValue, v ≠ SqlValue.nullV →
        filterToSQL (GFilter.eqF key v) conv =
          (cs "\"" ++ conv key ++ cs "\" = ?", [v])) ∧
      (∀ v : SqlValue, v ≠ SqlValue.nullV →
        filterToSQL (GFilter.neF key v) conv =
          (cs "\"" ++ conv key ++ cs "\" != ?", [v])) := by
  intro conv key
  refine ⟨rfl, rfl, ?_, ?_⟩
  · intro v hv
    simp only [filterToSQL]
    rw [if_neg hv]
  · intro v hv
    simp only [filterToSQL]
    rw [if_neg hv]

theorem eq_ne_filter_fragments_witness :
    (SqlValue.intV 5 ≠ SqlValue.nullV) ∧
    filterToSQL (GFilter.eqF (cs "age") (SqlValue.intV 5)) toSnakeCase =
      (cs "\"" ++ toSnakeCase (cs "age") ++ cs "\" = ?", [SqlValue.intV 5]) ∧
    filterToSQL (GFilter.neF (cs "age") (SqlValue.intV 5)) toSnakeCase =
      (cs "\"" ++ toSnakeCase (cs "age") ++ cs "\" != ?", [SqlValue.intV 5]) :=
  ⟨by decide,
   (eq_ne_filter_fragments toSnakeCase (cs "age")).2.2.1 (SqlValue.intV 5) (by decide),
   (eq_ne_filter_fragments toSnakeCase (cs "age")).2.2.2 (SqlValue.intV 5) (by decide)⟩

/-! ### INSERT statement construction (src/driver.ts `insert`) -/

theorem insertCols_eq_filter : ∀ (row : Row) (key : Option Str) (conv : Str → Str),
    insertCols row key conv =
      ((row.filter fun kv => decide ¬(key = some kv.1 ∧ kv.2 = SqlValue.nullV)).map
         (fun kv => quoteId (conv kv.1)),
       (row.filter fun kv => decide ¬(key = some kv.1 ∧ kv.2 = SqlValue.nullV)).map
         (fun kv => toSQLCompatibleValue kv.2),
       (row.filter fun kv => decide ¬(key = some kv.1 ∧ kv.2 = SqlValue.nullV)).map
         (fun _ => cs "?")) := by
  intro row key conv
  induction row with
  | nil => rfl
  | cons kv rest ih =>
    obtain ⟨k, v⟩ := kv
    by_cases h : key = some k ∧ v = SqlValue.nullV
    · have e : insertCols ((k, v) :: rest) key conv = insertCols rest key conv := by
        simp only [insertCols]
        rw [if_pos h]
      have ef : List.filter (fun kv => decide ¬(key = some kv.1 ∧ kv.2 = SqlValue.nullV))
          ((k, v) :: rest) =
          List.filter (fun kv => decide ¬(key = some kv.1 ∧ kv.2 = SqlValue.nullV)) rest := by
        simp [List.filter_cons, h]
      rw [e, ih, ef]
    · have e : insertCols ((k, v) :: rest) key conv =
          (quoteId (conv k) :: (insertCols rest key conv).1,
           toSQLCompatibleValue v :: (insertCols rest key conv).2.1,
           cs "?" :: (insertCols rest key conv).2.2) := by
        simp only [insertCols]
        rw [if_neg h]
      have ef : List.filter (fun kv => decide ¬(key = some kv.1 ∧ kv.2 = SqlValue.nullV))
          ((k, v) :: rest) =
          (k, v) :: List.filter (fun kv => decide ¬(key = some kv.1 ∧ kv.2 = SqlValue.nullV))
            rest := by
        simp [List.filter_cons, h]
      rw [e, ih, ef]
      rfl

/-- Claim C8 (amended): the INSERT column list consists of all of the row
fields in order except the primary key when its value is null or absent —
null-valued non-key fields are kept and inserted as NULL values — with the
bound values the coerced field values in the same order; the statement
carries a `RETURNING` clause, and the `insertReturns` flag that gates the
key callback is set, exactly when the key name is a non-empty string whose
row value is null or absent; a concrete key value is inserted as-is with no
`RETURNING` clause. -/
theorem insert_statement_characterization :
    ∀ (table : Str) (row : Row) (key : Option Str) (conv : Str → Str),
      (insertCols row key conv).1 =
        (row.filter fun kv => decide ¬(key = some kv.1 ∧ kv.2 = SqlValue.nullV)).map
          (fun kv => quoteId (conv kv.1)) ∧
      (insertCols row key conv).2.1 =
        (row.filter fun kv => decide ¬(key = some kv.1 ∧ kv.2 = SqlValue.nullV)).map
          (fun kv => toSQLCompatibleValue kv.2) ∧
      (insertSentence table row key conv).2.2 = insertAutoGen row key ∧
      (insertSentence table row key conv).1 =
        cs "INSERT INTO \"" ++ table ++ cs "\"(" ++ joinComma (insertCols row key conv).1 ++
          cs ") VALUES (" ++ joinComma (insertCols row key conv).2.2 ++ cs ")" ++
          (if insertAutoGen row key then insertReturningClause key conv else []) ∧
      (insertAutoGen row key = true ↔
        ∃ k, key = some k ∧ k ≠ [] ∧ rowNullOrAbsent row k = true) := by
  intro table row key conv
  have hcols := insertCols_eq_filter row key conv
  refine ⟨by rw [hcols], by rw [hcols], rfl, rfl, ?_⟩
  cases key with
  | none =>
    simp [insertAutoGen, jsStrTruthy]
  | some k =>
    cases k with
    | nil =>
      simp [insertAutoGen, jsStrTruthy]
    | cons ch krest =>
      simp only [insertAutoGen, jsStrTruthy, Bool.true_and]
      constructor
      · intro h
        exact ⟨ch :: krest, rfl, by simp, h⟩
      · rintro ⟨k', hk, _, hr⟩
        injection hk with hk'
        subst hk'
        exact hr

/-- Claim C8 counterexample: a non-key field whose value is null still
appears in the column list (inserted as a NULL value); under the reading
of the claim in which the column list keeps only non-null fields, the
column list here would be empty. -/
theorem insert_null_field_in_columns_cex :
    insertCols [(cs "name", SqlValue.nullV)] (some (cs "id")) toSnakeCase =
      ([quoteId (cs "name")], [SqlValue.nullV], [cs "?"]) := by decide

/-! ### Empty update descriptors (src/driver.ts `update`, `updateMany`) -/

/-- Claim C9: an update or updateMany call whose update descriptor has no
keys takes the early return and issues no SQL statement (`none`), so the
call completes without side effect. -/
theorem empty_update_descriptor_no_statement :
    ∀ (table keyName : Str) (keyValue : SqlValue) (conv : Str → Str) (filter : GFilter),
      updateSQL table keyName keyValue [] conv = none ∧
      updateManySQL table filter [] conv = none := by
  intro table keyName keyValue conv filter
  exact ⟨rfl, rfl⟩

/-! ### findByKey resolution (src/driver.ts `findByKey`) -/

theorem objSet_of_not_mem : ∀ (r : Row) (k : Str) (v : SqlValue),
    k ∉ r.map Prod.fst → objSet r k v = r ++ [(k, v)] := by
  intro r k v h
  have hany : (r.any fun p => decide (p.1 = k)) = false := by
    rw [List.any_eq_false]
    intro p hp
    simp only [decide_eq_true_eq]
    intro habs
    exact h (List.mem_map.mpr ⟨p, hp, habs⟩)
  simp [objSet, hany]

theorem normalizeRow_go : ∀ (row : Row) (acc : Row),
    (∀ kv ∈ row, toCamelCase kv.1 ∉ acc.map Prod.fst) →
    (row.map fun kv => toCamelCase kv.1).Nodup →
    row.foldl (fun a kv => objSet a (toCamelCase kv.1) kv.2) acc =
      acc ++ row.map fun kv => (toCamelCase kv.1, kv.2) := by
  intro row
  induction row with
  | nil =>
    intro acc _ _
    simp
  | cons kv rest ih =>
    intro acc hnotin hnodup
    obtain ⟨k, v⟩ := kv
    simp only [List.foldl_cons]
    rw [objSet_of_not_mem acc (toCamelCase k) v (hnotin (k, v) (List.mem_cons_self _ _))]
    have hmap : ((k, v) :: rest).map (fun kv => toCamelCase kv.1) =
        toCamelCase k :: rest.map fun kv => toCamelCase kv.1 := rfl
    rw [hmap] at hnodup
    obtain ⟨hhead, hnodup'⟩ := List.nodup_cons.mp hnodup
    have hnotin' : ∀ kv' ∈ rest,
        toCamelCase kv'.1 ∉ (acc ++ [(toCamelCase k, v)]).map Prod.fst := by
      intro kv' hkv' habs
      rw [List.map_append] at habs
      rcases List.mem_append.mp habs with h | h
      · exact hnotin kv' (List.mem_cons_of_mem _ hkv') h
      · simp only [List.map_cons, List.map_nil, List.mem_singleton] at h
        exact hhead (h ▸ List.mem_map.mpr ⟨kv', hkv', rfl⟩)
    rw [ih (acc ++ [(toCamelCase k, v)]) hnotin' hnodup']
    simp

theorem normalizeRow_of_nodup : ∀ row : Row,
    (row.map fun kv => toCamelCase kv.1).Nodup →
    normalizeRow row = row.map fun kv => (toCamelCase kv.1, kv.2) := by
  intro row h
  have hgo := normalizeRow_go row [] (by intro kv _; simp) h
  simpa [normalizeRow] using hgo

/-- Claim C10: `findByKey` resolves to null when the query produced a null
or empty row set, and otherwise to the first row with every key rewritten
from storage convention to application convention (the camel-cased keys,
spelled out when the rewritten keys do not collide). -/
theorem findByKey_resolution :
    findByKeyResolve none = none ∧
    findByKeyResolve (some []) = none ∧
    (∀ (r : Row) (rest : List Row),
      findByKeyResolve (some (r :: rest)) = some (normalizeRow r)) ∧
    (∀ row : Row, (row.map fun kv => toCamelCase kv.1).Nodup →
      normalizeRow row = row.map fun kv => (toCamelCase kv.1, kv.2)) := by
  refine ⟨rfl, rfl, ?_, normalizeRow_of_nodup⟩
  intro r rest
  simp [findByKeyResolve, normalizeSQLResults]

theorem findByKey_resolution_witness :
    findByKeyResolve (some [[(cs "user_name", SqlValue.strV (cs "x"))]]) =
      some (normalizeRow [(cs "user_name", SqlValue.strV (cs "x"))]) ∧
    ([(cs "user_name", SqlValue.strV (cs "x"))].map fun kv => toCamelCase kv.1).Nodup ∧
    normalizeRow [(cs "user_name", SqlValue.strV (cs "x"))] =
      [(cs "user_name", SqlValue.strV (cs "x"))].map fun kv => (toCamelCase kv.1, kv.2) :=
  ⟨findByKey_resolution.2.2.1 [(cs "user_name", SqlValue.strV (cs "x"))] [], by decide,
   findByKey_resolution.2.2.2 [(cs "user_name", SqlValue.strV (cs "x"))] (by decide)⟩

/-! ### Streaming reader resource release (src/driver.ts `findStream`,
`findStreamSync`) -/

/-- Claim C2 evidence: on normal exhaustion the trace of the streaming loop
closes the cursor exactly once and releases the connection exactly once, in
that order, after the empty-signaling read; but when the per-row handler
raises an error, the loop aborts with no cursor-close and no
connection-release at all — the exception escapes the async executor before
the cleanup code runs — contradicting the claimed exactly-once release. -/
theorem findStream_handler_error_skips_release :
    runFindStream (fun _ => true)
        [BatchResult.ok [[(cs "id", SqlValue.intV 1)], [(cs "id", SqlValue.intV 2)]]] =
      [StreamEvent.readEv, StreamEvent.handleEv [(cs "id", SqlValue.intV 1)],
       StreamEvent.handleEv [(cs "id", SqlValue.intV 2)], StreamEvent.readEv,
       StreamEvent.resolveEv, StreamEvent.closeCursorEv, StreamEvent.releaseConnEv] ∧
    runFindStream (fun _ => false) [BatchResult.ok [[(cs "id", SqlValue.intV 1)]]] =
      [StreamEvent.readEv, StreamEvent.handleEv [(cs "id", SqlValue.intV 1)]] ∧
    (runFindStream (fun _ => false) [BatchResult.ok [[(cs "id", SqlValue.intV 1)]]]).count
        StreamEvent.closeCursorEv = 0 ∧
    (runFindStream (fun _ => false) [BatchResult.ok [[(cs "id", SqlValue.intV 1)]]]).count
        StreamEvent.releaseConnEv = 0 := by
  refine ⟨?_, ?_, ?_, ?_⟩ <;> decide

end TsbeanPG
